import Mathlib

/-!
Verification of the spinal-cord shape-analysis core (`msct_shape.py`).

The development shallowly embeds the pure computational content of
`properties2d`, `assign_AP_and_RL_diameter` and the accumulation /
smoothing / re-aggregation logic of `compute_properties_along_centerline`.
Machine floats are modelled as rationals; Python exceptions as
`Except String`; a Python `None` result as `Option`; the mutable
property dictionary as a total function from a closed key enumeration to
optional values (the key space of the source dictionaries is closed).
NumPy NaN (float 0.0/0.0) is modelled as `Option.none`.
-/

/-- The closed set of dictionary keys used by the source: the keys of the
dictionary built by `properties2d`, the two keys added by
`assign_AP_and_RL_diameter`, and the auxiliary series keys used by
`compute_properties_along_centerline`. -/
inductive PKey where
  | area
  | bbox
  | centroid
  | eccentricity
  | equivalent_diameter
  | euler_number
  | inertia_tensor
  | inertia_tensor_eigvals
  | minor_axis_length
  | major_axis_length
  | moments
  | moments_central
  | orientation
  | perimeter
  | ratio_minor_major
  | solidity
  | symmetry
  | RL_diameter
  | AP_diameter
  | incremental_length
  | distance_from_C1
  | vertebral_level
  | z_slice
  deriving DecidableEq, Repr

/-- A property dictionary: a finite map from keys to scalar values.
Non-scalar descriptors (bbox, moments, ...) are abstracted as scalars;
no claim inspects their values. -/
def Props : Type := PKey → Option ℚ

/-- Dictionary update, modelling a Python dictionary item assignment. -/
def upd (p : Props) (k : PKey) (v : ℚ) : Props :=
  fun k' => if k' = k then some v else p k'

/-- Embedding of `assign_AP_and_RL_diameter` (msct_shape.py lines 121-134).
Reads the orientation (in degrees), compares with the open interval
(-45, 45), and adds the two diameter keys; a missing key is a Python
KeyError, modelled as an error result. -/
def assign_AP_and_RL_diameter (p : Props) : Except String Props :=
  match p PKey.orientation with
  | none => Except.error "KeyError: orientation"
  | some o =>
    if -45 < o ∧ o < 45 then
      match p PKey.major_axis_length, p PKey.minor_axis_length with
      | some M, some m =>
          Except.ok (upd (upd p PKey.RL_diameter M) PKey.AP_diameter m)
      | _, _ => Except.error "KeyError"
    else
      match p PKey.minor_axis_length, p PKey.major_axis_length with
      | some m, some M =>
          Except.ok (upd (upd p PKey.RL_diameter m) PKey.AP_diameter M)
      | _, _ => Except.error "KeyError"

/-- The call `assign_AP_and_RL_diameter(sc_properties)` at line 241 of the
source, where `sc_properties` is the `Optional` result of `properties2d`:
subscripting a Python `None` raises a TypeError. -/
def assign_opt (p : Option Props) : Except String (Option Props) :=
  match p with
  | none => Except.error "TypeError: NoneType object is not subscriptable"
  | some q => (assign_AP_and_RL_diameter q).map some

/-- A heap of property dictionaries, used to state the in-place-mutation
frame property: references are natural numbers. -/
def Store : Type := ℕ → Props

/-- The function `assign_AP_and_RL_diameter` viewed at the heap level: the function
mutates the dictionary that the reference `r` designates and returns the
same reference. -/
def assign_in_place (σ : Store) (r : ℕ) : Except String (Store × ℕ) :=
  match assign_AP_and_RL_diameter (σ r) with
  | Except.ok q => Except.ok (fun r' => if r' = r then q else σ r', r)
  | Except.error e => Except.error e

/-- Python division, raising ZeroDivisionError on a zero denominator
(floats included: `1.0 / 0.0` raises in Python). -/
def pydiv (a b : ℚ) : Except String ℚ :=
  if b = 0 then Except.error "ZeroDivisionError" else Except.ok (a / b)

/-- The try/except block of `properties2d` (lines 46-49): the axis ratio,
with 0.0 substituted when the division raises. -/
def ratio_minor_major (minor major : ℚ) : ℚ :=
  match pydiv minor major with
  | Except.ok r => r
  | Except.error _ => 0

/-- The order in which `np.argsort` ranks indices of the region-area list:
by area, ties by original index. NumPy argsort is modelled as a stable
sort (its introsort runs insertion sort on short inputs such as the
per-patch region lists arising here). -/
def argRel (areas : List ℕ) (i j : ℕ) : Prop :=
  areas.getD i 0 < areas.getD j 0 ∨ (areas.getD i 0 = areas.getD j 0 ∧ i ≤ j)

instance (areas : List ℕ) : DecidableRel (argRel areas) := by
  intro i j
  unfold argRel
  infer_instance

instance (areas : List ℕ) : IsTotal ℕ (argRel areas) := by
  constructor
  intro i j
  unfold argRel
  rcases lt_trichotomy (areas.getD i 0) (areas.getD j 0) with h | h | h
  · exact Or.inl (Or.inl h)
  · rcases le_total i j with hij | hij
    · exact Or.inl (Or.inr ⟨h, hij⟩)
    · exact Or.inr (Or.inr ⟨h.symm, hij⟩)
  · exact Or.inr (Or.inl h)

instance (areas : List ℕ) : IsTrans ℕ (argRel areas) := by
  constructor
  intro i j k hij hjk
  unfold argRel at *
  rcases hij with h1 | ⟨e1, l1⟩ <;> rcases hjk with h2 | ⟨e2, l2⟩
  · exact Or.inl (h1.trans h2)
  · exact Or.inl (e2 ▸ h1)
  · exact Or.inl (e1 ▸ h2)
  · exact Or.inr ⟨e1.trans e2, l1.trans l2⟩

/-- Embedding of `np.argsort(areas)` (line 43 of the source): the list of indices of
`areas`, sorted into ascending area order, ties keeping index order. -/
def argsort (areas : List ℕ) : List ℕ :=
  List.insertionSort (argRel areas) (List.range areas.length)

/-- The selection `ix[-1]` at line 45 of the source: the index of the selected
(largest-area) region. -/
def select_region_index (areas : List ℕ) : ℕ :=
  (argsort areas).getLastD 0

/-- Left half of the resampled square (line 85): first half of each row,
flattened row-major. Row lengths are even in the source (the grid has
`2*size_grid/0.25` columns). -/
def left_half (square : List (List ℚ)) : List ℚ :=
  (square.map (fun row => row.take (row.length / 2))).flatten

/-- Mirrored right half of the resampled square (line 86,
`np.fliplr(square_image[:, size_half:])`), flattened row-major. -/
def right_half (square : List (List ℚ)) : List ℚ :=
  (square.map (fun row => (row.drop (row.length / 2)).reverse)).flatten

/-- The masked sum `np.sum(left_image[right_image == 1])` (line 88): the sum of left-half
values at positions whose mirrored right-half value equals 1. -/
def maskSum (L R : List ℚ) : ℚ :=
  ((L.zip R).map (fun p => if p.2 = 1 then p.1 else 0)).sum

/-- The Dice computation of line 88 on the two flattened halves.
`none` models the NumPy NaN produced by the float division 0.0/0.0 when
both halves sum to zero (NaN lies outside [0,1]). -/
def dice_core (L R : List ℚ) : Option ℚ :=
  if L.sum + R.sum = 0 then none
  else some (maskSum L R * 2 / (L.sum + R.sum))

/-- The symmetry score of `properties2d` as a function of the resampled
square (lines 84-88). -/
def dice_symmetry (square : List (List ℚ)) : Option ℚ :=
  dice_core (left_half square) (right_half square)

/-- Modelled from the spec: the Dice overlap coefficient
2 * card(left ∩ right) / (card(left) + card(right)) between the
foreground pixel sets (value 1) of the two halves. Stated from the
spec's words for comparison with the source formula `dice_core`. -/
def dice_overlap (L R : List ℚ) : ℚ :=
  2 * (((L.zip R).countP (fun p => decide (p.1 = 1 ∧ p.2 = 1)) : ℚ)) /
    ((L.countP (fun x => decide (x = 1)) : ℚ) + (R.countP (fun x => decide (x = 1)) : ℚ))

/-- List of properties to output, in the fixed order of
`compute_properties_along_centerline` (lines 142-150). -/
def property_list : List PKey :=
  [PKey.area, PKey.equivalent_diameter, PKey.AP_diameter, PKey.RL_diameter,
   PKey.ratio_minor_major, PKey.eccentricity, PKey.solidity,
   PKey.orientation, PKey.symmetry]

/-- The accumulated per-point series (the `properties` dictionary of the
builder, lines 182-186) together with the warnings printed so far
(the z coordinates named at line 253). -/
structure SeriesState where
  vals : PKey → List ℚ
  warnings : List ℤ

/-- Appending one value to one series of the dictionary. -/
def appendVal (s : PKey → List ℚ) (k : PKey) (v : ℚ) : PKey → List ℚ :=
  fun k' => if k' = k then s k' ++ [v] else s k'

/-- The body of the sampling loop of `compute_properties_along_centerline`
(lines 239-253), from the point where `properties2d` has produced
`sc_properties` (possibly `None`): line 241 applies
`assign_AP_and_RL_diameter` unconditionally, then line 243 tests for
`None` and either appends the auxiliary and property values or logs a
warning naming the voxel z coordinate. -/
def process_point (st : SeriesState) (sc_properties : Option Props)
    (inc_len : ℚ) (hasDiscs : Bool) (dist lvl : ℚ) (z : ℤ) :
    Except String SeriesState := do
  let scp ← assign_opt sc_properties
  match scp with
  | some q =>
      let s1 := appendVal st.vals PKey.incremental_length inc_len
      let s2 := if hasDiscs then
          appendVal (appendVal s1 PKey.distance_from_C1 dist) PKey.vertebral_level lvl
        else s1
      let s3 := appendVal s2 PKey.z_slice (z : ℚ)
      let s4 ← property_list.foldlM (fun s k =>
          match q k with
          | some v => Except.ok (appendVal s k v)
          | none => Except.error "KeyError") s3
      Except.ok ⟨s4, st.warnings⟩
  | none => Except.ok ⟨st.vals, st.warnings ++ [z]⟩

/-- Lines 295-298 of the source: the distinct z-slice labels in first-seen
order. -/
def sorting_values (zs : List ℤ) : List ℤ :=
  zs.foldl (fun acc l => if l ∈ acc then acc else acc ++ [l]) []

/-- The comprehension of lines 304-306: the oversampled values whose
z-slice label equals the given label (the values list and the z-slice
list are parallel sequences of equal length). -/
def sliceValues (vals : List ℚ) (zs : List ℤ) (label : ℤ) : List ℚ :=
  (vals.zip zs).filterMap (fun p => if p.2 = label then some p.1 else none)

/-- The mean `np.mean` of a list of rationals. -/
def listMean (xs : List ℚ) : ℚ := xs.sum / (xs.length : ℚ)

/-- One property's re-aggregated series (lines 303-306). -/
def averaged_one (vals : List ℚ) (zs : List ℤ) : List ℚ :=
  (sorting_values zs).map (fun l => listMean (sliceValues vals zs l))

/-- The `averaged_shape` ordered dictionary (lines 300-306): one entry per
property of `property_list`, in that order. -/
def averaged_shape (series : PKey → List ℚ) (zs : List ℤ) :
    List (PKey × List ℚ) :=
  property_list.map (fun n => (n, averaged_one (series n) zs))

/-- The number of samples of the Hann window `scipy.signal.hann(M)` for a
(possibly fractional) argument, per the scipy of the source's era:
an empty window when the argument is below 1, otherwise
`np.arange(0, M)` yields ceil(M) samples. No clamping is applied
anywhere in the source. -/
def hann_len (M : ℚ) : ℕ :=
  if M < 1 then 0 else (Int.toNat ⌈M⌉)

/-- The window length computed at line 267:
`scipy.signal.hann(smooth_factor / np.mean(centerline.progressive_length))`. -/
def smoothing_window_len (smooth_factor mean_spacing : ℚ) : ℕ :=
  hann_len (smooth_factor / mean_spacing)

/-- Full discrete convolution of two lists. -/
def convolve_full (x w : List ℚ) : List ℚ :=
  (List.range (x.length + w.length - 1)).map (fun k =>
    ((List.range (k + 1)).map (fun i => x.getD i 0 * w.getD (k - i) 0)).sum)

/-- Embedding of `scipy.signal.convolve(x, w, mode='same')`: the centered slice of the
full convolution, with the same number of samples as the first input. -/
def convolve_same (x w : List ℚ) : List ℚ :=
  ((convolve_full x w).drop ((w.length - 1) / 2)).take x.length

/-- Line 269 of the source: one property series convolved with the window
and divided by the window sum. -/
def smoothSeries (w x : List ℚ) : List ℚ :=
  (convolve_same x w).map (fun v => v / w.sum)

/-- The post-loop part of `compute_properties_along_centerline`
(lines 265-269 and 295-306): optional smoothing of every property series
followed by re-aggregation per distinct z-slice label. The Hann window
generator (scipy, external) is passed as a parameter `hann`; the source
calls it with argument `smooth_factor / mean_spacing` and its sample
count is `hann_len` of that argument. -/
def finalize (hann : ℚ → List ℚ) (smooth_factor mean_spacing : ℚ)
    (series : PKey → List ℚ) (zs : List ℤ) : List (PKey × List ℚ) :=
  if smooth_factor ≠ 0 then
    averaged_shape
      (fun n => smoothSeries (hann (smooth_factor / mean_spacing)) (series n)) zs
  else
    averaged_shape series zs

/-- A concrete region-property dictionary used by witnesses: orientation
parameter in degrees, major axis 10, minor axis 4. -/
def propsEx (o : ℚ) : Props :=
  fun k =>
    match k with
    | PKey.orientation => some o
    | PKey.major_axis_length => some 10
    | PKey.minor_axis_length => some 4
    | _ => none

/-- The exact result of a successful `assign_AP_and_RL_diameter` call:
both diameter keys are written, the branch chosen by the strict
comparison of the orientation with the open interval (-45, 45). -/
theorem assign_spec (p : Props) (o M m : ℚ)
    (ho : p PKey.orientation = some o)
    (hM : p PKey.major_axis_length = some M)
    (hm : p PKey.minor_axis_length = some m) :
    assign_AP_and_RL_diameter p =
      Except.ok (upd (upd p PKey.RL_diameter (if -45 < o ∧ o < 45 then M else m))
        PKey.AP_diameter (if -45 < o ∧ o < 45 then m else M)) := by
  unfold assign_AP_and_RL_diameter
  rw [ho, hM, hm]
  by_cases h : -45 < o ∧ o < 45 <;> simp [h]

/-- Claim C2: the axis ratio is minor/major with 0.0 substituted when the
division raises ZeroDivisionError; for the extractor's inputs
(0 ≤ minor ≤ major, a property of the region axis lengths) the result is
always in [0,1], equals 0 when the major axis length is 0, and the
computation never propagates an exception (`ratio_minor_major` is total:
the try/except of lines 46-49 catches the only possible error). -/
theorem c2_ratio_total_in_unit_interval (minor major : ℚ)
    (h0 : 0 ≤ minor) (h1 : minor ≤ major) :
    0 ≤ ratio_minor_major minor major ∧
    ratio_minor_major minor major ≤ 1 ∧
    (major = 0 → ratio_minor_major minor major = 0) := by
  by_cases hb : major = 0
  · have hz : ratio_minor_major minor major = 0 := by
      unfold ratio_minor_major pydiv
      simp [hb]
    rw [hz]
    exact ⟨le_refl 0, zero_le_one, fun _ => rfl⟩
  · have hv : ratio_minor_major minor major = minor / major := by
      unfold ratio_minor_major pydiv
      simp [hb]
    have hpos : 0 < major := lt_of_le_of_ne (h0.trans h1) (Ne.symm hb)
    rw [hv]
    exact ⟨div_nonneg h0 hpos.le, (div_le_one hpos).mpr h1, fun h => absurd h hb⟩

theorem c2_ratio_total_in_unit_interval_witness :
    ((0 : ℚ) ≤ 3 ∧ (3 : ℚ) ≤ 4) ∧
    (0 ≤ ratio_minor_major 3 4 ∧ ratio_minor_major 3 4 ≤ 1 ∧
      ((4 : ℚ) = 0 → ratio_minor_major 3 4 = 0)) :=
  ⟨by decide, c2_ratio_total_in_unit_interval 3 4 (by decide) (by decide)⟩

/-- Claim C6: the disambiguator assigns RL = major and AP = minor exactly
when -45 < orientation < 45 (strict inequalities, orientation in
degrees), and swaps the assignment otherwise. -/
theorem c6_axis_disambiguation (p : Props) (o M m : ℚ)
    (ho : p PKey.orientation = some o)
    (hM : p PKey.major_axis_length = some M)
    (hm : p PKey.minor_axis_length = some m) :
    ∃ q, assign_AP_and_RL_diameter p = Except.ok q ∧
      q PKey.RL_diameter = some (if -45 < o ∧ o < 45 then M else m) ∧
      q PKey.AP_diameter = some (if -45 < o ∧ o < 45 then m else M) := by
  refine ⟨_, assign_spec p o M m ho hM hm, ?_, ?_⟩ <;> simp [upd]

theorem c6_axis_disambiguation_witness :
    (∃ q, assign_AP_and_RL_diameter (propsEx 0) = Except.ok q ∧
        q PKey.RL_diameter = some 10) ∧
    (∃ q, assign_AP_and_RL_diameter (propsEx 90) = Except.ok q ∧
        q PKey.RL_diameter = some 4) := by
  obtain ⟨q0, h0, hRL0, hAP0⟩ := c6_axis_disambiguation (propsEx 0) 0 10 4 rfl rfl rfl
  obtain ⟨q1, h1, hRL1, hAP1⟩ := c6_axis_disambiguation (propsEx 90) 90 10 4 rfl rfl rfl
  refine ⟨⟨q0, h0, ?_⟩, ⟨q1, h1, ?_⟩⟩
  · rw [hRL0]; decide
  · rw [hRL1]; decide

/-- Claim C9: at the heap level, `assign_AP_and_RL_diameter` mutates the
dictionary designated by the input reference and returns that same
reference: the two diameter keys are added, every other key of the
dictionary keeps its value, and every other heap reference is untouched. -/
theorem c9_assign_in_place_frame (σ : Store) (r : ℕ) (o M m : ℚ)
    (ho : σ r PKey.orientation = some o)
    (hM : σ r PKey.major_axis_length = some M)
    (hm : σ r PKey.minor_axis_length = some m) :
    ∃ σ₂, assign_in_place σ r = Except.ok (σ₂, r) ∧
      (∀ k, k ≠ PKey.RL_diameter → k ≠ PKey.AP_diameter → σ₂ r k = σ r k) ∧
      (∃ v, σ₂ r PKey.RL_diameter = some v) ∧
      (∃ v, σ₂ r PKey.AP_diameter = some v) ∧
      (∀ r₂, r₂ ≠ r → σ₂ r₂ = σ r₂) := by
  unfold assign_in_place
  rw [assign_spec (σ r) o M m ho hM hm]
  refine ⟨_, rfl, ?_, ⟨if -45 < o ∧ o < 45 then M else m, ?_⟩,
    ⟨if -45 < o ∧ o < 45 then m else M, ?_⟩, ?_⟩
  · intro k hk1 hk2
    simp [upd, hk1, hk2]
  · simp [upd]
  · simp [upd]
  · intro r₂ hr
    simp [hr]

theorem c9_assign_in_place_frame_witness :
    ((fun _ : ℕ => propsEx 0) 7 PKey.orientation = some 0) ∧
    (∃ σ₂, assign_in_place (fun _ : ℕ => propsEx 0) 7 = Except.ok (σ₂, 7) ∧
      (∀ k, k ≠ PKey.RL_diameter → k ≠ PKey.AP_diameter →
        σ₂ 7 k = (fun _ : ℕ => propsEx 0) 7 k) ∧
      (∃ v, σ₂ 7 PKey.RL_diameter = some v) ∧
      (∃ v, σ₂ 7 PKey.AP_diameter = some v) ∧
      (∀ r₂, r₂ ≠ 7 → σ₂ r₂ = (fun _ : ℕ => propsEx 0) r₂)) :=
  ⟨rfl, c9_assign_in_place_frame (fun _ => propsEx 0) 7 0 10 4 rfl rfl rfl⟩

/-- Claim C1 (code bug evidence): at a centerline point whose patch has no
foreground region, `properties2d` returns None, and line 241 applies
`assign_AP_and_RL_diameter` to it BEFORE the None test of line 243;
subscripting None raises a TypeError that aborts the whole run. The
warning-and-skip branch of lines 251-253 is unreachable dead code. -/
theorem c1_missing_region_aborts (st : SeriesState) (inc_len dist lvl : ℚ)
    (hasDiscs : Bool) (z : ℤ) :
    process_point st none inc_len hasDiscs dist lvl z =
      Except.error "TypeError: NoneType object is not subscriptable" := rfl

/-- Claim C4: with smoothing factor 0 the smoothing branch is skipped and
the output is exactly the per-slice average of the raw oversampled
values, one entry per distinct z-slice label in first-seen order. -/
theorem c4_zero_smoothing_is_plain_average (hann : ℚ → List ℚ)
    (mean_spacing : ℚ) (series : PKey → List ℚ) (zs : List ℤ) :
    finalize hann 0 mean_spacing series zs = averaged_shape series zs ∧
    averaged_shape series zs = property_list.map (fun n =>
      (n, (sorting_values zs).map (fun l =>
        listMean (sliceValues (series n) zs l)))) := by
  constructor
  · unfold finalize
    simp
  · rfl

/-- Claim C10: the output key list of the builder is exactly the nine
property names, in the fixed order of lines 142-150, for every run
(smoothed or not); the auxiliary series never appear among the output
keys. -/
theorem c10_output_key_set (hann : ℚ → List ℚ) (sf sp : ℚ)
    (series : PKey → List ℚ) (zs : List ℤ) :
    (finalize hann sf sp series zs).map Prod.fst = property_list ∧
    property_list =
      [PKey.area, PKey.equivalent_diameter, PKey.AP_diameter,
       PKey.RL_diameter, PKey.ratio_minor_major, PKey.eccentricity,
       PKey.solidity, PKey.orientation, PKey.symmetry] ∧
    PKey.incremental_length ∉ (finalize hann sf sp series zs).map Prod.fst ∧
    PKey.z_slice ∉ (finalize hann sf sp series zs).map Prod.fst ∧
    PKey.distance_from_C1 ∉ (finalize hann sf sp series zs).map Prod.fst ∧
    PKey.vertebral_level ∉ (finalize hann sf sp series zs).map Prod.fst := by
  have hkeys : (finalize hann sf sp series zs).map Prod.fst = property_list := by
    unfold finalize averaged_shape
    by_cases h : sf ≠ 0 <;> simp only [if_pos h, if_neg h] <;> rfl
  refine ⟨hkeys, rfl, ?_, ?_, ?_, ?_⟩ <;> rw [hkeys] <;> decide

/-- The first-seen deduplication loop keeps the accumulator free of
duplicates. -/
theorem sorting_values_aux_nodup (zs : List ℤ) : ∀ acc : List ℤ, acc.Nodup →
    (zs.foldl (fun acc l => if l ∈ acc then acc else acc ++ [l]) acc).Nodup := by
  induction zs with
  | nil => intro acc h; simpa using h
  | cons z zt ih =>
      intro acc h
      simp only [List.foldl_cons]
      apply ih
      by_cases hz : z ∈ acc
      · simpa [hz] using h
      · simp [hz, List.nodup_append, h]

/-- Membership in the result of the first-seen deduplication loop. -/
theorem sorting_values_aux_mem (zs : List ℤ) : ∀ (acc : List ℤ) (x : ℤ),
    (x ∈ zs.foldl (fun acc l => if l ∈ acc then acc else acc ++ [l]) acc) ↔
      x ∈ acc ∨ x ∈ zs := by
  induction zs with
  | nil => simp
  | cons z zt ih =>
      intro acc x
      simp only [List.foldl_cons]
      rw [ih]
      by_cases hz : z ∈ acc
      · simp only [if_pos hz, List.mem_cons]
        constructor
        · rintro (h | h)
          · exact Or.inl h
          · exact Or.inr (Or.inr h)
        · rintro (h | h | h)
          · exact Or.inl h
          · exact Or.inl (h ▸ hz)
          · exact Or.inr h
      · simp only [if_neg hz, List.mem_append, List.mem_singleton, List.mem_cons]
        tauto

/-- Claim C3: re-aggregation collects the distinct z-slice labels in
first-seen order (no duplicates, containing exactly the labels of the
oversampled sequence) and averages, per label, all oversampled values at
positions carrying that label; on the sequence [5,5,6,6,5,7] the output
order is [5,6,7] and the entry for label 5 averages indices 0, 1, 4. -/
theorem c3_first_seen_reaggregation :
    (∀ zs : List ℤ, (sorting_values zs).Nodup) ∧
    (∀ (zs : List ℤ) (x : ℤ), x ∈ sorting_values zs ↔ x ∈ zs) ∧
    sorting_values [5, 5, 6, 6, 5, 7] = [5, 6, 7] ∧
    (∀ a b c d e f : ℚ,
      averaged_one [a, b, c, d, e, f] [5, 5, 6, 6, 5, 7] =
        [(a + b + e) / 3, (c + d) / 2, f]) := by
  refine ⟨?_, ?_, by decide, ?_⟩
  · intro zs
    exact sorting_values_aux_nodup zs [] List.nodup_nil
  · intro zs x
    simpa using sorting_values_aux_mem zs [] x
  · intro a b c d e f
    have hsv : sorting_values [5, 5, 6, 6, 5, 7] = [5, 6, 7] := by decide
    unfold averaged_one
    rw [hsv]
    simp [sliceValues, listMean, List.zip]
    ring

/-- The argsort order is reflexive. -/
theorem argRel_refl (areas : List ℕ) (i : ℕ) : argRel areas i i :=
  Or.inr ⟨rfl, le_refl i⟩

/-- In a list sorted by a reflexive relation, every element is related to
the last element. -/
theorem sorted_rel_getLast {r : ℕ → ℕ → Prop} (hrefl : ∀ x, r x x) :
    ∀ (l : List ℕ) (h : l ≠ []), l.Sorted r → ∀ x ∈ l, r x (l.getLast h) := by
  intro l
  induction l with
  | nil => intro h; exact absurd rfl h
  | cons a t ih =>
      intro h hs x hx
      cases t with
      | nil =>
          simp only [List.mem_singleton] at hx
          subst hx
          simpa using hrefl x
      | cons b t₂ =>
          have hne : (b :: t₂) ≠ [] := by simp
          rw [List.getLast_cons hne]
          rcases List.mem_cons.mp hx with rfl | hx₂
          · exact (List.sorted_cons.mp hs).1 _ (List.getLast_mem hne)
          · exact ih hne (List.sorted_cons.mp hs).2 x hx₂

/-- Claim C5: region selection takes the last index of the argsort of the
area list: the selected index attains the maximum area, and among
equal-maximum areas it is the LAST index in traversal order (argsort
modelled as the stable sort NumPy applies to these short lists). -/
theorem c5_largest_region_last_tiebreak (areas : List ℕ) (h : areas ≠ []) :
    select_region_index areas < areas.length ∧
    (∀ j, j < areas.length →
      areas.getD j 0 ≤ areas.getD (select_region_index areas) 0) ∧
    (∀ j, j < areas.length →
      areas.getD j 0 = areas.getD (select_region_index areas) 0 →
      j ≤ select_region_index areas) := by
  have hlen : 0 < areas.length := List.length_pos.mpr h
  have hperm : List.Perm (argsort areas) (List.range areas.length) :=
    List.perm_insertionSort _ _
  have hlne : argsort areas ≠ [] := by
    intro hnil
    have hle := hperm.length_eq
    rw [hnil] at hle
    simp at hle
    omega
  have hsorted : (argsort areas).Sorted (argRel areas) :=
    List.sorted_insertionSort _ _
  have hk : select_region_index areas = (argsort areas).getLast hlne := by
    unfold select_region_index
    rw [List.getLastD_eq_getLast?, List.getLast?_eq_getLast _ hlne]
    rfl
  have hkmem : select_region_index areas ∈ argsort areas := by
    rw [hk]
    exact List.getLast_mem hlne
  have hklt : select_region_index areas < areas.length :=
    List.mem_range.mp (hperm.mem_iff.mp hkmem)
  have hmax : ∀ j, j < areas.length →
      argRel areas j (select_region_index areas) := by
    intro j hj
    have hjmem : j ∈ argsort areas :=
      hperm.mem_iff.mpr (List.mem_range.mpr hj)
    rw [hk]
    exact sorted_rel_getLast (argRel_refl areas) (argsort areas) hlne hsorted j hjmem
  refine ⟨hklt, ?_, ?_⟩
  · intro j hj
    rcases hmax j hj with h1 | ⟨h1, _⟩
    · exact le_of_lt h1
    · exact le_of_eq h1
  · intro j hj heq
    rcases hmax j hj with h1 | ⟨_, h2⟩
    · omega
    · exact h2

theorem c5_largest_region_last_tiebreak_witness :
    (([2, 5, 3, 5] : List ℕ) ≠ []) ∧
    (select_region_index [2, 5, 3, 5] < ([2, 5, 3, 5] : List ℕ).length ∧
     (∀ j, j < ([2, 5, 3, 5] : List ℕ).length →
        ([2, 5, 3, 5] : List ℕ).getD j 0 ≤
          ([2, 5, 3, 5] : List ℕ).getD (select_region_index [2, 5, 3, 5]) 0) ∧
     (∀ j, j < ([2, 5, 3, 5] : List ℕ).length →
        ([2, 5, 3, 5] : List ℕ).getD j 0 =
          ([2, 5, 3, 5] : List ℕ).getD (select_region_index [2, 5, 3, 5]) 0 →
        j ≤ select_region_index [2, 5, 3, 5])) :=
  ⟨by decide, c5_largest_region_last_tiebreak [2, 5, 3, 5] (by decide)⟩

/-- The centered crop of the full convolution has as many samples as the
first input whenever the window is nonempty. -/
theorem convolve_same_length (x w : List ℚ) (hw : w ≠ []) :
    (convolve_same x w).length = x.length := by
  have hw1 : 1 ≤ w.length := List.length_pos.mpr hw
  unfold convolve_same convolve_full
  simp only [List.length_take, List.length_drop, List.length_map,
    List.length_range]
  omega

/-- Claim C8, counterexample: with the nonzero smoothing factor 1 mm and a
mean per-point spacing of 2 mm, the window the source builds has 0
samples: the length is NOT clamped to at least 1 (scipy receives the
fractional argument 1/2 and returns an empty window; the subsequent
convolution and the division by the zero window sum then fail). -/
theorem c8_counterexample_no_lower_clamp :
    ((1 : ℚ) ≠ 0) ∧ ¬ (1 ≤ smoothing_window_len 1 2) := by
  norm_num [smoothing_window_len, hann_len]

/-- Claim C8 as amended: the source applies no clamping at all: the window
sample count is exactly ceil(smooth_factor / mean_spacing) when that
ratio is at least 1 (and 0 below 1, however long the series); whenever
the ratio is at least 1 the window is nonempty and the convolved,
window-normalized output of each property series has the same number of
samples as the input series. -/
theorem c8_amended_window_and_same_length (sf sp : ℚ) (w x : List ℚ)
    (hw : w.length = smoothing_window_len sf sp) (h1 : 1 ≤ sf / sp) :
    1 ≤ w.length ∧
    smoothing_window_len sf sp = Int.toNat ⌈sf / sp⌉ ∧
    (smoothSeries w x).length = x.length := by
  have hnotlt : ¬ (sf / sp < 1) := not_lt.mpr h1
  have hlen : smoothing_window_len sf sp = Int.toNat ⌈sf / sp⌉ := by
    unfold smoothing_window_len hann_len
    rw [if_neg hnotlt]
  have hceil : (0 : ℤ) < ⌈sf / sp⌉ :=
    Int.ceil_pos.mpr (lt_of_lt_of_le zero_lt_one h1)
  have hpos : 1 ≤ w.length := by
    rw [hw, hlen]
    omega
  refine ⟨hpos, hlen, ?_⟩
  unfold smoothSeries
  rw [List.length_map]
  exact convolve_same_length x w (by
    intro hnil
    rw [hnil] at hpos
    simp at hpos)

theorem c8_amended_window_and_same_length_witness :
    (([1, 1] : List ℚ).length = smoothing_window_len 2 1 ∧ (1 : ℚ) ≤ 2 / 1) ∧
    (1 ≤ ([1, 1] : List ℚ).length ∧
     smoothing_window_len 2 1 = Int.toNat ⌈(2 : ℚ) / 1⌉ ∧
     (smoothSeries [1, 1] [1, 2, 3]).length = ([1, 2, 3] : List ℚ).length) :=
  ⟨⟨by simp [smoothing_window_len, hann_len], by simp⟩,
    c8_amended_window_and_same_length 2 1 [1, 1] [1, 2, 3]
      (by simp [smoothing_window_len, hann_len]) (by simp)⟩

/-- A list of 0/1 values sums to the number of its 1 entries. -/
theorem binary_sum_eq_count (L : List ℚ) (hb : ∀ x ∈ L, x = 0 ∨ x = 1) :
    L.sum = (L.countP (fun x => decide (x = 1)) : ℚ) := by
  induction L with
  | nil => simp
  | cons a t ih =>
      have ha := hb a (List.mem_cons_self a t)
      have ht : ∀ x ∈ t, x = 0 ∨ x = 1 :=
        fun x hx => hb x (List.mem_cons_of_mem a hx)
      rcases ha with rfl | rfl
      · rw [List.sum_cons, ih ht, List.countP_cons]
        norm_num
      · rw [List.sum_cons, ih ht, List.countP_cons]
        norm_num
        ring

/-- For a 0/1-valued left half, the masked sum of line 88 counts the
positions where both halves carry a 1. -/
theorem maskSum_eq_inter_count (L : List ℚ) :
    ∀ R : List ℚ, (∀ x ∈ L, x = 0 ∨ x = 1) →
      maskSum L R =
        ((L.zip R).countP (fun p => decide (p.1 = 1 ∧ p.2 = 1)) : ℚ) := by
  induction L with
  | nil => intro R _; simp [maskSum]
  | cons a t ih =>
      intro R hb
      have ha := hb a (List.mem_cons_self a t)
      have ht : ∀ x ∈ t, x = 0 ∨ x = 1 :=
        fun x hx => hb x (List.mem_cons_of_mem a hx)
      cases R with
      | nil => simp [maskSum]
      | cons b R₂ =>
          have hstep : maskSum (a :: t) (b :: R₂) =
              (if b = 1 then a else 0) + maskSum t R₂ := by
            unfold maskSum
            simp
          rw [hstep, ih R₂ ht, List.zip_cons_cons, List.countP_cons]
          by_cases hb1 : b = 1
          · rcases ha with rfl | rfl
            · simp [hb1]
            · simp [hb1]
              ring
          · simp [hb1]

/-- The both-ones count is bounded by the left ones count. -/
theorem count_inter_le_left (L : List ℚ) : ∀ R : List ℚ,
    (L.zip R).countP (fun p => decide (p.1 = 1 ∧ p.2 = 1)) ≤
      L.countP (fun x => decide (x = 1)) := by
  induction L with
  | nil => intro R; simp
  | cons a t ih =>
      intro R
      cases R with
      | nil => simp
      | cons b R₂ =>
          have hih := ih R₂
          rw [List.zip_cons_cons, List.countP_cons, List.countP_cons]
          split_ifs with h1 h2 h3
          · omega
          · rw [decide_eq_true_eq] at h1
            simp only [decide_eq_true_eq] at h2
            exact absurd h1.1 h2
          · omega
          · omega

/-- The both-ones count is bounded by the right ones count. -/
theorem count_inter_le_right (L : List ℚ) : ∀ R : List ℚ,
    (L.zip R).countP (fun p => decide (p.1 = 1 ∧ p.2 = 1)) ≤
      R.countP (fun x => decide (x = 1)) := by
  induction L with
  | nil => intro R; simp
  | cons a t ih =>
      intro R
      cases R with
      | nil => simp
      | cons b R₂ =>
          have hih := ih R₂
          rw [List.zip_cons_cons, List.countP_cons, List.countP_cons]
          split_ifs with h1 h2 h3
          · omega
          · rw [decide_eq_true_eq] at h1
            simp only [decide_eq_true_eq] at h2
            exact absurd h1.2 h2
          · omega
          · omega

/-- Claim C7, counterexample: on an all-background resampled square the
denominator of line 88 is 0 and the float division yields NaN (modelled
as `none`), not a symmetry value in [0,1]. Such a square arises for a
patch that does contain a foreground region: the sampling grid only
covers a fixed band around the region centroid (half-width
`8.0/resolution[0]`), and a connected region, e.g. a large ring, can lie
entirely outside that band around its own centroid. -/
theorem c7_counterexample_nan_symmetry :
    dice_symmetry [[0, 0], [0, 0]] = none := by
  norm_num [dice_symmetry, dice_core, left_half, right_half]

/-- Claim C7 as amended: whenever the resampled square is 0/1-valued and
its two halves are not both all-zero, the symmetry score of line 88 is
defined, equals the spec's Dice overlap
2 * card(both-ones) / (card(left ones) + card(right ones)), and lies in
[0,1]. -/
theorem c7_amended_dice_in_unit_interval (L R : List ℚ)
    (hbL : ∀ x ∈ L, x = 0 ∨ x = 1) (hbR : ∀ x ∈ R, x = 0 ∨ x = 1)
    (hne : L.sum + R.sum ≠ 0) :
    dice_core L R = some (dice_overlap L R) ∧
    0 ≤ dice_overlap L R ∧ dice_overlap L R ≤ 1 := by
  have hL := binary_sum_eq_count L hbL
  have hR := binary_sum_eq_count R hbR
  have hmask := maskSum_eq_inter_count L R hbL
  have hden_ne :
      ((L.countP (fun x => decide (x = 1)) : ℚ) +
        (R.countP (fun x => decide (x = 1)) : ℚ)) ≠ 0 := by
    rw [← hL, ← hR]
    exact hne
  have hden_nonneg :
      (0 : ℚ) ≤ (L.countP (fun x => decide (x = 1)) : ℚ) +
        (R.countP (fun x => decide (x = 1)) : ℚ) := by positivity
  have hden_pos :
      (0 : ℚ) < (L.countP (fun x => decide (x = 1)) : ℚ) +
        (R.countP (fun x => decide (x = 1)) : ℚ) :=
    lt_of_le_of_ne hden_nonneg (Ne.symm hden_ne)
  refine ⟨?_, ?_, ?_⟩
  · unfold dice_core dice_overlap
    rw [if_neg hne, hmask, hL, hR]
    rw [mul_comm]
  · unfold dice_overlap
    apply div_nonneg
    · positivity
    · exact hden_nonneg
  · unfold dice_overlap
    rw [div_le_one hden_pos]
    have h1 := count_inter_le_left L R
    have h2 := count_inter_le_right L R
    have h1q : ((L.zip R).countP (fun p => decide (p.1 = 1 ∧ p.2 = 1)) : ℚ) ≤
        (L.countP (fun x => decide (x = 1)) : ℚ) := by exact_mod_cast h1
    have h2q : ((L.zip R).countP (fun p => decide (p.1 = 1 ∧ p.2 = 1)) : ℚ) ≤
        (R.countP (fun x => decide (x = 1)) : ℚ) := by exact_mod_cast h2
    linarith

theorem c7_amended_dice_in_unit_interval_witness :
    ((∀ x ∈ ([1, 0] : List ℚ), x = 0 ∨ x = 1) ∧
     (∀ x ∈ ([1, 1] : List ℚ), x = 0 ∨ x = 1) ∧
     ([1, 0] : List ℚ).sum + ([1, 1] : List ℚ).sum ≠ 0) ∧
    (dice_core [1, 0] [1, 1] = some (dice_overlap [1, 0] [1, 1]) ∧
     0 ≤ dice_overlap [1, 0] [1, 1] ∧ dice_overlap [1, 0] [1, 1] ≤ 1) :=
  ⟨⟨by decide, by decide, by norm_num⟩,
    c7_amended_dice_in_unit_interval [1, 0] [1, 1]
      (by decide) (by decide) (by norm_num)⟩
